import Mathlib

/-!
Verification of the LRU cache in `src/LLD/LRU Caching/lru_cache.py`.

The Python class `LRUCache` keeps a `collections.OrderedDict` whose
iteration order is insertion order: the first entry is the
least-recently-used one and the last entry is the most-recently-used
one.  We embed the `OrderedDict` as an association list in that same
order and translate each method body directly.
-/

/-- Dynamic (Python-like) values.  The cache stores arbitrary values;
the repository's own tests use integer keys, string values, and the
integer sentinel `-1` for "not found", so these two constructors cover
everything the source manipulates. -/
inductive PyVal where
  | int : Int → PyVal
  | str : String → PyVal
deriving DecidableEq

/-- An `OrderedDict` modelled as an association list in insertion
order: head is the oldest (least-recently-used) binding, the last
element is the newest (most-recently-used) binding.  All dictionaries
built by the cache operations have pairwise-distinct keys. -/
abbrev ODict := List (PyVal × PyVal)

/-- Python `d[key]` lookup / `d.get(key)`: the binding of `key` in `d`
(first occurrence, which is the only one when keys are distinct). -/
def odLookup : ODict → PyVal → Option PyVal
  | [], _ => none
  | (k, v) :: rest, key => if k = key then some v else odLookup rest key

/-- Python `key in d`. -/
def odContains (d : ODict) (key : PyVal) : Bool :=
  (odLookup d key).isSome

/-- Remaining dictionary after Python `d.pop(key)`: the first binding
of `key` removed, all other bindings kept in order. -/
def odPop : ODict → PyVal → ODict
  | [], _ => []
  | (k, v) :: rest, key => if k = key then rest else (k, v) :: odPop rest key

/-- State of the Python `LRUCache` object: the fixed `self.capacity`
and the ordered dictionary `self.cache`.  (The `self.lock` field only
serializes accesses and holds no data.) -/
structure LRUCache where
  capacity : Nat
  cache : ODict
deriving DecidableEq

/-- Python `LRUCache.__init__`: raises `ValueError("Capacity must be
positive")` when `capacity <= 0`, otherwise creates an empty cache
with the requested capacity. -/
def LRUCache.new (capacity : Int) : Except String LRUCache :=
  if capacity ≤ 0 then .error "Capacity must be positive"
  else .ok ⟨capacity.toNat, []⟩

/-- Python `LRUCache.get`: returns `-1` when the key is absent;
otherwise pops the binding and re-inserts it at the end (most recently
used) and returns the stored value.  The returned pair is (result,
updated state). -/
def LRUCache.get (c : LRUCache) (key : PyVal) : PyVal × LRUCache :=
  match odLookup c.cache key with
  | none => (PyVal.int (-1), c)
  | some value => (value, ⟨c.capacity, odPop c.cache key ++ [(key, value)]⟩)

/-- Python `LRUCache.put`: if the key exists, pop it; otherwise, if
`len(self.cache) >= self.capacity`, pop the first (least recently
used) item; then bind the key at the end (most recently used). -/
def LRUCache.put (c : LRUCache) (key value : PyVal) : LRUCache :=
  if odContains c.cache key then
    ⟨c.capacity, odPop c.cache key ++ [(key, value)]⟩
  else if c.capacity ≤ c.cache.length then
    ⟨c.capacity, c.cache.drop 1 ++ [(key, value)]⟩
  else
    ⟨c.capacity, c.cache ++ [(key, value)]⟩

/-- Python `LRUCache.put` with its one latent failure made explicit:
`OrderedDict.popitem(last=False)` raises `KeyError` on an empty
dictionary.  On every state the real constructor can lead to, this
agrees with `LRUCache.put` (proved below). -/
def LRUCache.putE (c : LRUCache) (key value : PyVal) : Except String LRUCache :=
  if odContains c.cache key then
    .ok ⟨c.capacity, odPop c.cache key ++ [(key, value)]⟩
  else if c.capacity ≤ c.cache.length then
    match c.cache with
    | [] => .error "dictionary is empty"
    | _ :: rest => .ok ⟨c.capacity, rest ++ [(key, value)]⟩
  else
    .ok ⟨c.capacity, c.cache ++ [(key, value)]⟩

/-- Python `LRUCache.clear`. -/
def LRUCache.clear (c : LRUCache) : LRUCache :=
  ⟨c.capacity, []⟩

/-- Python `LRUCache.get_size`: `len(self.cache)`. -/
def LRUCache.get_size (c : LRUCache) : Nat :=
  c.cache.length

/-- Python `LRUCache.is_full`: `len(self.cache) >= self.capacity`. -/
def LRUCache.is_full (c : LRUCache) : Bool :=
  c.capacity ≤ c.cache.length

/-- Python `LRUCache.peek`: `self.cache.get(key, -1)`, no mutation. -/
def LRUCache.peek (c : LRUCache) (key : PyVal) : PyVal :=
  (odLookup c.cache key).getD (PyVal.int (-1))

/-- One public operation of the store. -/
inductive Op where
  | get : PyVal → Op
  | put : PyVal → PyVal → Op
  | peek : PyVal → Op
  | clear : Op
  | size : Op
  | isFull : Op
deriving DecidableEq

/-- State transformation of one operation (`peek`, `size`, `isFull`
return information but do not mutate the store). -/
def applyOp (c : LRUCache) : Op → LRUCache
  | .get key => (c.get key).2
  | .put key value => c.put key value
  | .peek _ => c
  | .clear => c.clear
  | .size => c
  | .isFull => c

/-- Run a sequence of operations from a starting state. -/
def runOps (c : LRUCache) (ops : List Op) : LRUCache :=
  ops.foldl applyOp c

/-- States an external caller can observe: freshly constructed stores
and everything reachable from them through the public operations. -/
inductive Reachable : LRUCache → Prop where
  | init (capacity : Int) (c : LRUCache) :
      LRUCache.new capacity = .ok c → Reachable c
  | step (c : LRUCache) (op : Op) :
      Reachable c → Reachable (applyOp c op)

/-- The structural invariant the cache maintains: positive capacity,
occupancy at most capacity, and pairwise-distinct keys. -/
def WF (c : LRUCache) : Prop :=
  1 ≤ c.capacity ∧ c.cache.length ≤ c.capacity ∧ (c.cache.map Prod.fst).Nodup

/-! ### Dictionary lemmas -/

theorem odLookup_eq_none (d : ODict) (key : PyVal) :
    odLookup d key = none ↔ key ∉ d.map Prod.fst := by
  induction d with
  | nil => simp [odLookup]
  | cons p rest ih =>
    obtain ⟨k, v⟩ := p
    by_cases h : k = key
    · subst h
      simp [odLookup]
    · have hne : ¬key = k := fun h' => h h'.symm
      simp only [odLookup, if_neg h, ih, List.map_cons, List.mem_cons, not_or]
      constructor
      · intro hn
        exact ⟨hne, hn⟩
      · intro hn
        exact hn.2

theorem odContains_iff (d : ODict) (key : PyVal) :
    odContains d key = true ↔ key ∈ d.map Prod.fst := by
  rw [odContains, Option.isSome_iff_ne_none, ne_eq, odLookup_eq_none]
  simp

theorem odPop_of_not_contains (d : ODict) (key : PyVal)
    (h : odLookup d key = none) : odPop d key = d := by
  induction d with
  | nil => rfl
  | cons p rest ih =>
    obtain ⟨k, v⟩ := p
    by_cases hk : k = key
    · subst hk
      simp [odLookup] at h
    · simp only [odLookup, if_neg hk] at h
      simp [odPop, hk, ih h]

theorem odPop_sublist (d : ODict) (key : PyVal) :
    List.Sublist (odPop d key) d := by
  induction d with
  | nil => simp [odPop]
  | cons p rest ih =>
    obtain ⟨k, v⟩ := p
    by_cases hk : k = key
    · simp [odPop, hk]
    · simp only [odPop, if_neg hk]
      exact ih.cons₂ _

theorem odPop_length (d : ODict) (key : PyVal) (h : odContains d key = true) :
    (odPop d key).length + 1 = d.length := by
  induction d with
  | nil => simp [odContains, odLookup] at h
  | cons p rest ih =>
    obtain ⟨k, v⟩ := p
    by_cases hk : k = key
    · simp [odPop, hk]
    · simp only [odContains, odLookup, if_neg hk] at h
      simp [odPop, hk, ih h]

theorem odLookup_odPop_ne (d : ODict) (k key : PyVal) (h : key ≠ k) :
    odLookup (odPop d k) key = odLookup d key := by
  induction d with
  | nil => rfl
  | cons p rest ih =>
    obtain ⟨k', v⟩ := p
    by_cases hk : k' = k
    · subst hk
      have hne : ¬k' = key := fun h' => h h'.symm
      simp [odPop, odLookup, hne]
    · simp only [odPop, if_neg hk, odLookup]
      by_cases hkey : k' = key
      · rw [if_pos hkey, if_pos hkey]
      · rw [if_neg hkey, if_neg hkey, ih]

theorem odLookup_odPop_self (d : ODict) (key : PyVal)
    (h : (d.map Prod.fst).Nodup) : odLookup (odPop d key) key = none := by
  induction d with
  | nil => rfl
  | cons p rest ih =>
    obtain ⟨k, v⟩ := p
    simp only [List.map_cons, List.nodup_cons] at h
    by_cases hk : k = key
    · subst hk
      simp only [odPop, if_pos rfl]
      exact (odLookup_eq_none rest k).2 h.1
    · simp [odPop, odLookup, hk, ih h.2]

theorem odLookup_append_left (d₁ d₂ : ODict) (key v : PyVal)
    (h : odLookup d₁ key = some v) : odLookup (d₁ ++ d₂) key = some v := by
  induction d₁ with
  | nil => simp [odLookup] at h
  | cons p rest ih =>
    obtain ⟨k, w⟩ := p
    by_cases hk : k = key
    · simp only [odLookup, if_pos hk] at h
      simp [odLookup, hk, h]
    · simp only [odLookup, if_neg hk] at h
      simp [odLookup, hk, ih h]

theorem odLookup_append_right (d₁ d₂ : ODict) (key : PyVal)
    (h : odLookup d₁ key = none) : odLookup (d₁ ++ d₂) key = odLookup d₂ key := by
  induction d₁ with
  | nil => rfl
  | cons p rest ih =>
    obtain ⟨k, w⟩ := p
    by_cases hk : k = key
    · simp [odLookup, hk] at h
    · simp only [odLookup, if_neg hk] at h
      simp [odLookup, hk, ih h]

theorem nodup_odPop (d : ODict) (key : PyVal) (h : (d.map Prod.fst).Nodup) :
    ((odPop d key).map Prod.fst).Nodup :=
  h.sublist ((odPop_sublist d key).map Prod.fst)

theorem nodup_append_singleton (d : ODict) (k v : PyVal)
    (hd : (d.map Prod.fst).Nodup) (hk : odLookup d k = none) :
    ((d ++ [(k, v)]).map Prod.fst).Nodup := by
  rw [List.map_append]
  refine List.Nodup.append hd (List.nodup_singleton k) ?_
  intro a ha hb
  simp only [List.map_cons, List.map_nil, List.mem_singleton] at hb
  rw [hb] at ha
  exact (odLookup_eq_none d k).1 hk ha

theorem odLookup_drop_one (d : ODict) (key : PyVal)
    (h : odLookup d key = none) : odLookup (d.drop 1) key = none := by
  cases d with
  | nil => exact h
  | cons p rest =>
    obtain ⟨k, v⟩ := p
    by_cases hk : k = key
    · rw [odLookup, if_pos hk] at h
      exact absurd h (by simp)
    · rw [odLookup, if_neg hk] at h
      exact h

/-! ### The structural invariant is maintained -/

theorem wf_new (cap : Int) (c : LRUCache) (h : LRUCache.new cap = .ok c) :
    WF c := by
  unfold LRUCache.new at h
  split at h
  · exact absurd h (by simp)
  · rename_i hcap
    injection h with h
    subst h
    have hone : 1 ≤ cap.toNat := by omega
    exact ⟨hone, by simp, by simp⟩

theorem wf_get (c : LRUCache) (key : PyVal) (h : WF c) : WF (c.get key).2 := by
  obtain ⟨h1, h2, h3⟩ := h
  unfold LRUCache.get
  cases hl : odLookup c.cache key with
  | none => exact ⟨h1, h2, h3⟩
  | some v =>
    refine ⟨h1, ?_, ?_⟩
    · have hc : odContains c.cache key = true := by
        simp [odContains, hl]
      have := odPop_length c.cache key hc
      simp only [List.length_append, List.length_cons, List.length_nil]
      omega
    · exact nodup_append_singleton _ _ _ (nodup_odPop _ _ h3)
        (odLookup_odPop_self _ _ h3)

theorem wf_put (c : LRUCache) (key value : PyVal) (h : WF c) :
    WF (c.put key value) := by
  obtain ⟨h1, h2, h3⟩ := h
  unfold LRUCache.put
  by_cases hc : odContains c.cache key = true
  · rw [if_pos hc]
    refine ⟨h1, ?_, ?_⟩
    · have := odPop_length c.cache key hc
      simp only [List.length_append, List.length_cons, List.length_nil]
      omega
    · exact nodup_append_singleton _ _ _ (nodup_odPop _ _ h3)
        (odLookup_odPop_self _ _ h3)
  · rw [if_neg hc]
    have habs : odLookup c.cache key = none := by
      cases hval : odLookup c.cache key with
      | none => rfl
      | some v => exact absurd (by simp [odContains, hval]) hc
    by_cases hfull : c.capacity ≤ c.cache.length
    · rw [if_pos hfull]
      refine ⟨h1, ?_, ?_⟩
      · simp only [List.length_append, List.length_drop, List.length_cons,
          List.length_nil]
        omega
      · refine nodup_append_singleton _ _ _ ?_ ?_
        · exact h3.sublist ((List.drop_sublist 1 c.cache).map Prod.fst)
        · exact odLookup_drop_one c.cache key habs
    · rw [if_neg hfull]
      exact ⟨h1, by simp; omega, nodup_append_singleton _ _ _ h3 habs⟩

theorem wf_applyOp (c : LRUCache) (op : Op) (h : WF c) : WF (applyOp c op) := by
  cases op with
  | get key => exact wf_get c key h
  | put key value => exact wf_put c key value h
  | peek key => exact h
  | clear => exact ⟨h.1, by simp [applyOp, LRUCache.clear], by simp [applyOp, LRUCache.clear]⟩
  | size => exact h
  | isFull => exact h

theorem reachable_wf (c : LRUCache) (h : Reachable c) : WF c := by
  induction h with
  | init cap c h => exact wf_new cap c h
  | step c op _ ih => exact wf_applyOp c op ih

theorem reachable_runOps (c : LRUCache) (ops : List Op) (h : Reachable c) :
    Reachable (runOps c ops) := by
  induction ops generalizing c with
  | nil => exact h
  | cons op rest ih => exact ih _ (Reachable.step c op h)

theorem reachable_empty_two : Reachable ⟨2, []⟩ :=
  Reachable.init 2 ⟨2, []⟩ rfl

theorem reachable_two :
    Reachable ⟨2, [(PyVal.int 1, PyVal.str "one"), (PyVal.int 2, PyVal.str "two")]⟩ := by
  have h1 := Reachable.step _ (Op.put (PyVal.int 1) (PyVal.str "one")) reachable_empty_two
  have h2 := Reachable.step _ (Op.put (PyVal.int 2) (PyVal.str "two")) h1
  exact h2

/-- Helper: looking up any other key is unchanged when a binding is
popped and re-inserted at the most-recently-used end. -/
theorem odLookup_move_to_back (d : ODict) (key v k' : PyVal) (h : k' ≠ key) :
    odLookup (odPop d key ++ [(key, v)]) k' = odLookup d k' := by
  have hne : ¬key = k' := fun h' => h h'.symm
  cases hl : odLookup (odPop d key) k' with
  | some w =>
    rw [odLookup_append_left _ _ _ _ hl, ← odLookup_odPop_ne d key k' h, hl]
  | none =>
    rw [odLookup_append_right _ _ _ hl, ← odLookup_odPop_ne d key k' h, hl]
    simp [odLookup, hne]

/-- C2: for every capacity the constructor accepts and every sequence of
public operations run from the fresh store, the occupancy reported by
`get_size` never exceeds the capacity. -/
theorem size_le_capacity (cap : Int) (c₀ : LRUCache) (ops : List Op)
    (h : LRUCache.new cap = .ok c₀) :
    (runOps c₀ ops).get_size ≤ (runOps c₀ ops).capacity :=
  (reachable_wf _ (reachable_runOps c₀ ops (Reachable.init cap c₀ h))).2.1

theorem size_le_capacity_witness :
    (runOps ⟨2, []⟩ [Op.put (PyVal.int 1) (PyVal.str "one"),
      Op.put (PyVal.int 2) (PyVal.str "two"),
      Op.put (PyVal.int 3) (PyVal.str "three")]).get_size ≤
    (runOps ⟨2, []⟩ [Op.put (PyVal.int 1) (PyVal.str "one"),
      Op.put (PyVal.int 2) (PyVal.str "two"),
      Op.put (PyVal.int 3) (PyVal.str "three")]).capacity :=
  size_le_capacity 2 ⟨2, []⟩ _ rfl

/-- C9: the sentinel `-1` is also a legitimate value, so `get` and
`peek` return the very same result on a store where the key maps to
`-1` as on a store where the key is absent, although one store contains
the key and the other does not. -/
theorem sentinel_conflation :
    ((((⟨2, []⟩ : LRUCache).put (PyVal.int 5) (PyVal.int (-1))).get (PyVal.int 5)).1
        = ((⟨2, []⟩ : LRUCache).get (PyVal.int 5)).1) ∧
    ((((⟨2, []⟩ : LRUCache).put (PyVal.int 5) (PyVal.int (-1)))).peek (PyVal.int 5)
        = (⟨2, []⟩ : LRUCache).peek (PyVal.int 5)) ∧
    odContains (((⟨2, []⟩ : LRUCache).put (PyVal.int 5) (PyVal.int (-1)))).cache
      (PyVal.int 5) = true ∧
    odContains ((⟨2, []⟩ : LRUCache)).cache (PyVal.int 5) = false := by
  decide

/-- C1: on any reachable state where the key is absent, `put` behaves
by case on occupancy: below capacity it appends the new binding at the
most-recently-used end and occupancy grows by one; at capacity it
drops the single least-recently-used binding, appends the new binding
at the most-recently-used end, and occupancy stays at capacity. -/
theorem put_absent_cases (c : LRUCache) (key value : PyVal)
    (hr : Reachable c) (habs : odContains c.cache key = false) :
    (c.get_size < c.capacity →
      (c.put key value).cache = c.cache ++ [(key, value)] ∧
      (c.put key value).get_size = c.get_size + 1) ∧
    (c.get_size = c.capacity →
      (c.put key value).cache = c.cache.drop 1 ++ [(key, value)] ∧
      (c.put key value).get_size = c.capacity) := by
  obtain ⟨h1, h2, h3⟩ := reachable_wf c hr
  have hcb : ¬odContains c.cache key = true := by simp [habs]
  constructor
  · intro hlt
    have hlt' : c.cache.length < c.capacity := hlt
    unfold LRUCache.put
    rw [if_neg hcb, if_neg (by omega)]
    exact ⟨rfl, by simp [LRUCache.get_size]⟩
  · intro heq
    have heq' : c.cache.length = c.capacity := heq
    unfold LRUCache.put
    rw [if_neg hcb, if_pos (by omega)]
    refine ⟨rfl, ?_⟩
    show (c.cache.drop 1 ++ [(key, value)]).length = c.capacity
    rw [List.length_append, List.length_drop]
    simp only [List.length_cons, List.length_nil]
    omega

theorem put_absent_cases_witness :
    ((⟨2, [(PyVal.int 1, PyVal.str "one"), (PyVal.int 2, PyVal.str "two")]⟩ :
        LRUCache).put (PyVal.int 3) (PyVal.str "three")).cache
      = [(PyVal.int 2, PyVal.str "two"), (PyVal.int 3, PyVal.str "three")] := by
  have h := put_absent_cases
    ⟨2, [(PyVal.int 1, PyVal.str "one"), (PyVal.int 2, PyVal.str "two")]⟩
    (PyVal.int 3) (PyVal.str "three") reachable_two (by decide)
  rw [(h.2 rfl).1]
  rfl

/-- C3: `get` on an absent key returns the sentinel `-1` and leaves the
store completely unchanged; on a present key it returns the stored
value, moves that binding to the most-recently-used end, and leaves
every other binding, the occupancy, and the capacity unchanged. -/
theorem get_cases (c : LRUCache) (key : PyVal) (hr : Reachable c) :
    (odContains c.cache key = false → c.get key = (PyVal.int (-1), c)) ∧
    (∀ v, odLookup c.cache key = some v →
      (c.get key).1 = v ∧
      odLookup ((c.get key).2).cache key = some v ∧
      ((c.get key).2).cache.getLast? = some (key, v) ∧
      (∀ k', k' ≠ key → odLookup ((c.get key).2).cache k' = odLookup c.cache k') ∧
      ((c.get key).2).get_size = c.get_size ∧
      ((c.get key).2).capacity = c.capacity) := by
  have h3 := (reachable_wf c hr).2.2
  constructor
  · intro habs
    have hl : odLookup c.cache key = none := by
      cases hv : odLookup c.cache key with
      | none => rfl
      | some v => simp [odContains, hv] at habs
    simp [LRUCache.get, hl]
  · intro v hv
    have hget : c.get key = (v, ⟨c.capacity, odPop c.cache key ++ [(key, v)]⟩) := by
      simp [LRUCache.get, hv]
    rw [hget]
    refine ⟨rfl, ?_, ?_, ?_, ?_, rfl⟩
    · show odLookup (odPop c.cache key ++ [(key, v)]) key = some v
      rw [odLookup_append_right _ _ _ (odLookup_odPop_self _ _ h3)]
      simp [odLookup]
    · show (odPop c.cache key ++ [(key, v)]).getLast? = some (key, v)
      exact List.getLast?_concat _
    · intro k' hk
      show odLookup (odPop c.cache key ++ [(key, v)]) k' = odLookup c.cache k'
      exact odLookup_move_to_back _ _ _ _ hk
    · have hc : odContains c.cache key = true := by simp [odContains, hv]
      have hlen := odPop_length c.cache key hc
      show (odPop c.cache key ++ [(key, v)]).length = c.cache.length
      rw [List.length_append]
      simp only [List.length_cons, List.length_nil]
      omega

theorem get_cases_witness :
    ((⟨2, [(PyVal.int 1, PyVal.str "one"), (PyVal.int 2, PyVal.str "two")]⟩ :
        LRUCache).get (PyVal.int 1)).1 = PyVal.str "one" :=
  ((get_cases _ (PyVal.int 1) reachable_two).2 (PyVal.str "one") rfl).1

/-- C4: on a capacity-2 store, `put k1; put k2; get k1; put k3` with
distinct keys evicts `k2` and keeps `k1`; concretely, with capacity 2
the sequence `put 1 one; put 2 two` makes `get 1` return `one`, the
following `put 3 three` evicts key `2`, `get 2` returns the sentinel
`-1`, and `get 3` returns `three`. -/
theorem recency_refresh (k1 k2 k3 v1 v2 v3 : PyVal)
    (h12 : k1 ≠ k2) (h13 : k1 ≠ k3) (h23 : k2 ≠ k3) :
    (runOps ⟨2, []⟩ [Op.put k1 v1, Op.put k2 v2, Op.get k1, Op.put k3 v3]).cache
      = [(k1, v1), (k3, v3)] ∧
    (let s2 : LRUCache :=
      ((⟨2, []⟩ : LRUCache).put (PyVal.int 1) (PyVal.str "one")).put
        (PyVal.int 2) (PyVal.str "two")
     let r1 := s2.get (PyVal.int 1)
     let s3 := r1.2.put (PyVal.int 3) (PyVal.str "three")
     let r2 := s3.get (PyVal.int 2)
     let r3 := r2.2.get (PyVal.int 3)
     r1.1 = PyVal.str "one" ∧ odContains s3.cache (PyVal.int 2) = false ∧
     r2.1 = PyVal.int (-1) ∧ r3.1 = PyVal.str "three") := by
  constructor
  · simp [runOps, applyOp, LRUCache.put, LRUCache.get, odContains, odLookup,
      odPop, h12, h13, h23]
  · decide

theorem recency_refresh_witness :
    (runOps ⟨2, []⟩ [Op.put (PyVal.int 10) (PyVal.int 100),
      Op.put (PyVal.int 20) (PyVal.int 200), Op.get (PyVal.int 10),
      Op.put (PyVal.int 30) (PyVal.int 300)]).cache
      = [(PyVal.int 10, PyVal.int 100), (PyVal.int 30, PyVal.int 300)] :=
  (recency_refresh (PyVal.int 10) (PyVal.int 20) (PyVal.int 30)
    (PyVal.int 100) (PyVal.int 200) (PyVal.int 300)
    (by decide) (by decide) (by decide)).1

/-- C5: `peek` returns exactly the value-or-sentinel result that `get`
would return while never mutating the store; consequently it does not
protect a key from eviction: on a capacity-2 store with distinct keys,
`put k1; put k2; peek k1; put k3` evicts `k1`. -/
theorem peek_noninterference :
    (∀ (c : LRUCache) (key : PyVal),
      c.peek key = (c.get key).1 ∧ applyOp c (Op.peek key) = c) ∧
    (∀ k1 k2 k3 v1 v2 v3 : PyVal, k1 ≠ k2 → k1 ≠ k3 → k2 ≠ k3 →
      (runOps ⟨2, []⟩ [Op.put k1 v1, Op.put k2 v2, Op.peek k1, Op.put k3 v3]).cache
        = [(k2, v2), (k3, v3)]) := by
  constructor
  · intro c key
    refine ⟨?_, rfl⟩
    cases hl : odLookup c.cache key with
    | none => simp [LRUCache.peek, LRUCache.get, hl]
    | some v => simp [LRUCache.peek, LRUCache.get, hl]
  · intro k1 k2 k3 v1 v2 v3 h12 h13 h23
    simp [runOps, applyOp, LRUCache.put, odContains, odLookup, odPop,
      h12, h13, h23]

theorem peek_noninterference_witness :
    (runOps ⟨2, []⟩ [Op.put (PyVal.int 1) (PyVal.str "one"),
      Op.put (PyVal.int 2) (PyVal.str "two"), Op.peek (PyVal.int 1),
      Op.put (PyVal.int 3) (PyVal.str "three")]).cache
      = [(PyVal.int 2, PyVal.str "two"), (PyVal.int 3, PyVal.str "three")] :=
  peek_noninterference.2 (PyVal.int 1) (PyVal.int 2) (PyVal.int 3)
    (PyVal.str "one") (PyVal.str "two") (PyVal.str "three")
    (by decide) (by decide) (by decide)

theorem get_fst_of_lookup (c : LRUCache) (key v : PyVal)
    (h : odLookup c.cache key = some v) : (c.get key).1 = v := by
  simp [LRUCache.get, h]

/-- Helper: effect of `put` on a state where the key is present and
keys are pairwise distinct. -/
theorem put_present_aux (c : LRUCache) (key v : PyVal)
    (h3 : (c.cache.map Prod.fst).Nodup) (hp : odContains c.cache key = true) :
    odLookup (c.put key v).cache key = some v ∧
    (c.put key v).cache.getLast? = some (key, v) ∧
    (∀ k', k' ≠ key → odLookup (c.put key v).cache k' = odLookup c.cache k') ∧
    (c.put key v).get_size = c.get_size ∧
    (c.put key v).capacity = c.capacity := by
  have hput : c.put key v = ⟨c.capacity, odPop c.cache key ++ [(key, v)]⟩ := by
    unfold LRUCache.put
    rw [if_pos hp]
  rw [hput]
  refine ⟨?_, ?_, ?_, ?_, rfl⟩
  · show odLookup (odPop c.cache key ++ [(key, v)]) key = some v
    rw [odLookup_append_right _ _ _ (odLookup_odPop_self _ _ h3)]
    simp [odLookup]
  · show (odPop c.cache key ++ [(key, v)]).getLast? = some (key, v)
    exact List.getLast?_concat _
  · intro k' hk
    show odLookup (odPop c.cache key ++ [(key, v)]) k' = odLookup c.cache k'
    exact odLookup_move_to_back _ _ _ _ hk
  · have hlen := odPop_length c.cache key hp
    show (odPop c.cache key ++ [(key, v)]).length = c.cache.length
    rw [List.length_append]
    simp only [List.length_cons, List.length_nil]
    omega

/-- C6: `put` on a key already present (including when the store is
full) replaces the value, moves the binding to the most-recently-used
end, evicts nothing (every other binding keeps its value), and keeps
occupancy and capacity unchanged; a second `put` on the same key still
leaves occupancy unchanged, and `get` then returns the second value. -/
theorem put_update_in_place (c : LRUCache) (key v v₂ : PyVal) (hr : Reachable c)
    (hp : odContains c.cache key = true) :
    (odLookup (c.put key v).cache key = some v ∧
     (c.put key v).cache.getLast? = some (key, v) ∧
     (∀ k', k' ≠ key → odLookup (c.put key v).cache k' = odLookup c.cache k') ∧
     (c.put key v).get_size = c.get_size ∧
     (c.put key v).capacity = c.capacity) ∧
    ((c.put key v).put key v₂).get_size = c.get_size ∧
    (((c.put key v).put key v₂).get key).1 = v₂ := by
  obtain ⟨h1, h2, h3⟩ := reachable_wf c hr
  have H1 := put_present_aux c key v h3 hp
  have h3' : ((c.put key v).cache.map Prod.fst).Nodup :=
    (wf_put c key v ⟨h1, h2, h3⟩).2.2
  have hp' : odContains (c.put key v).cache key = true := by
    simp [odContains, H1.1]
  have H2 := put_present_aux (c.put key v) key v₂ h3' hp'
  refine ⟨H1, ?_, ?_⟩
  · rw [H2.2.2.2.1, H1.2.2.2.1]
  · exact get_fst_of_lookup _ _ _ H2.1

theorem put_update_in_place_witness :
    ((((⟨2, [(PyVal.int 1, PyVal.str "one"), (PyVal.int 2, PyVal.str "two")]⟩ :
        LRUCache).put (PyVal.int 1) (PyVal.str "x")).put (PyVal.int 1)
        (PyVal.str "y")).get (PyVal.int 1)).1 = PyVal.str "y" :=
  (put_update_in_place _ (PyVal.int 1) (PyVal.str "x") (PyVal.str "y")
    reachable_two (by decide)).2.2

/-- C8: construction fails exactly when the requested capacity is at
most zero (and no store value is produced then); `put` never fails on
any reachable state: `putE`, which makes the latent `popitem` failure
explicit, always returns `ok` of exactly what `put` computes.  The
remaining operations are plain total functions with no failure path. -/
theorem construction_failure_iff (cap : Int) (c : LRUCache) (key value : PyVal)
    (hr : Reachable c) :
    ((∃ e, LRUCache.new cap = .error e) ↔ cap ≤ 0) ∧
    c.putE key value = .ok (c.put key value) := by
  obtain ⟨h1, h2, h3⟩ := reachable_wf c hr
  constructor
  · constructor
    · rintro ⟨e, he⟩
      by_contra hcap
      unfold LRUCache.new at he
      rw [if_neg hcap] at he
      exact absurd he (by simp)
    · intro hcap
      refine ⟨"Capacity must be positive", ?_⟩
      unfold LRUCache.new
      rw [if_pos hcap]
  · unfold LRUCache.put LRUCache.putE
    by_cases hc : odContains c.cache key = true
    · rw [if_pos hc, if_pos hc]
    · rw [if_neg hc, if_neg hc]
      by_cases hfull : c.capacity ≤ c.cache.length
      · rw [if_pos hfull, if_pos hfull]
        cases hcc : c.cache with
        | nil =>
          rw [hcc] at hfull
          simp at hfull
          omega
        | cons p rest => rfl
      · rw [if_neg hfull, if_neg hfull]

theorem construction_failure_iff_witness :
    ((∃ e, LRUCache.new (-3) = .error e) ↔ (-3 : Int) ≤ 0) ∧
    (⟨2, [(PyVal.int 1, PyVal.str "one"), (PyVal.int 2, PyVal.str "two")]⟩ :
      LRUCache).putE (PyVal.int 9) (PyVal.int 7)
      = .ok ((⟨2, [(PyVal.int 1, PyVal.str "one"), (PyVal.int 2, PyVal.str "two")]⟩ :
        LRUCache).put (PyVal.int 9) (PyVal.int 7)) :=
  construction_failure_iff (-3) _ (PyVal.int 9) (PyVal.int 7) reachable_two

/-- C10: `put key value` never changes the value stored under a
different key `k'`: the binding of `k'` either survives with the same
value, or disappears only in the single eviction case — `key` absent,
occupancy equal to capacity, and `k'` the current least-recently-used
key at the head of the order. -/
theorem put_frame (c : LRUCache) (key value k' : PyVal) (hr : Reachable c)
    (hne : k' ≠ key) :
    ∀ v', odLookup c.cache k' = some v' →
      odLookup (c.put key value).cache k' = some v' ∨
      (odLookup (c.put key value).cache k' = none ∧
       odContains c.cache key = false ∧
       c.get_size = c.capacity ∧
       (c.cache.map Prod.fst).head? = some k') := by
  have hwf := reachable_wf c hr
  intro v' hv'
  by_cases hc : odContains c.cache key = true
  · left
    have hput : (c.put key value).cache = odPop c.cache key ++ [(key, value)] := by
      unfold LRUCache.put
      rw [if_pos hc]
    rw [hput, odLookup_move_to_back _ _ _ _ hne, hv']
  · have hcf : odContains c.cache key = false := by
      cases hb : odContains c.cache key
      · rfl
      · exact absurd hb hc
    by_cases hfull : c.capacity ≤ c.cache.length
    · have hput : (c.put key value).cache = c.cache.drop 1 ++ [(key, value)] := by
        unfold LRUCache.put
        rw [if_neg hc, if_pos hfull]
      have heq : c.cache.length = c.capacity := le_antisymm hwf.2.1 hfull
      cases hd : c.cache with
      | nil =>
        rw [hd] at hv'
        exact absurd hv' (by simp [odLookup])
      | cons p rest =>
        obtain ⟨k0, v0⟩ := p
        have hnd : (((k0, v0) :: rest).map Prod.fst).Nodup := hd ▸ hwf.2.2
        rw [hd] at hv' hput
        by_cases hk0 : k0 = k'
        · subst hk0
          right
          refine ⟨?_, hd ▸ hcf, heq, ?_⟩
          · rw [hput]
            show odLookup (rest ++ [(key, value)]) k0 = none
            have hrest : odLookup rest k0 = none := by
              refine (odLookup_eq_none rest k0).2 ?_
              simp only [List.map_cons, List.nodup_cons] at hnd
              exact hnd.1
            rw [odLookup_append_right _ _ _ hrest]
            have hkey : ¬key = k0 := fun h' => hne h'.symm
            simp [odLookup, hkey]
          · rfl
        · left
          rw [hput]
          show odLookup (rest ++ [(key, value)]) k' = some v'
          have hv'' : odLookup rest k' = some v' := by
            rw [odLookup, if_neg hk0] at hv'
            exact hv'
          exact odLookup_append_left _ _ _ _ hv''
    · left
      have hput : (c.put key value).cache = c.cache ++ [(key, value)] := by
        unfold LRUCache.put
        rw [if_neg hc, if_neg hfull]
      rw [hput]
      exact odLookup_append_left _ _ _ _ hv'

theorem put_frame_witness :
    odLookup ((⟨2, [(PyVal.int 1, PyVal.str "one"), (PyVal.int 2, PyVal.str "two")]⟩ :
        LRUCache).put (PyVal.int 3) (PyVal.str "three")).cache (PyVal.int 1)
      = some (PyVal.str "one") ∨
    (odLookup ((⟨2, [(PyVal.int 1, PyVal.str "one"), (PyVal.int 2, PyVal.str "two")]⟩ :
        LRUCache).put (PyVal.int 3) (PyVal.str "three")).cache (PyVal.int 1)
      = none ∧
     odContains (⟨2, [(PyVal.int 1, PyVal.str "one"), (PyVal.int 2, PyVal.str "two")]⟩ :
        LRUCache).cache (PyVal.int 3) = false ∧
     (⟨2, [(PyVal.int 1, PyVal.str "one"), (PyVal.int 2, PyVal.str "two")]⟩ :
        LRUCache).get_size
      = (⟨2, [(PyVal.int 1, PyVal.str "one"), (PyVal.int 2, PyVal.str "two")]⟩ :
        LRUCache).capacity ∧
     ((⟨2, [(PyVal.int 1, PyVal.str "one"), (PyVal.int 2, PyVal.str "two")]⟩ :
        LRUCache).cache.map Prod.fst).head? = some (PyVal.int 1)) :=
  put_frame ⟨2, [(PyVal.int 1, PyVal.str "one"), (PyVal.int 2, PyVal.str "two")]⟩
    (PyVal.int 3) (PyVal.str "three") (PyVal.int 1) reachable_two (by decide)
    (PyVal.str "one") rfl
